import Mathlib

/-!
# Verification of csprojtool's move command and solution tree builder

Shallow embedding of `src/csprojtool/src/move_command.rs` and
`src/csprojtool/src/sln.rs`.

Conventions:
* An absolute, canonicalized filesystem path is embedded as its list of
  normal components (`List String`); the root prefix is implicit.
* A possibly-relative path is a `List Comp`, where a component is either a
  parent-directory segment (`..`) or a normal name.  Rust's
  `Path::components` drops empty and `.` segments, which is mirrored by
  `parseComps`.
* The filesystem and the version-control subprocesses are external
  collaborators; filesystem existence checks enter as an oracle
  `List Comp → Bool`, and mutations are recorded as `Effect` values.
-/

namespace Csprojtool

/-- A path component after Rust's `Path::components` normalization:
either a parent-directory segment or a normal name. -/
inductive Comp where
  | parent
  | normal (s : String)
deriving DecidableEq, Repr

/-- Modelled from the spec: `simplify` from `path_extensions` (not under
src/) is "lexical normalization (collapse `.`/`..` segments, unify
separators) without touching the filesystem".  Stack-based collapse: a
parent segment cancels the preceding normal segment; leading parent
segments are kept. -/
def simpAux : List Comp → List Comp → List Comp
  | stack, [] => stack.reverse
  | stack, .normal s :: rest => simpAux (.normal s :: stack) rest
  | .normal _ :: stack, .parent :: rest => simpAux stack rest
  | stack, .parent :: rest => simpAux (.parent :: stack) rest

/-- Modelled from the spec: lexical simplification of a component list
(`PathExt::simplify` from `path_extensions`, not under src/). -/
def simplify (l : List Comp) : List Comp := simpAux [] l

/-- Modelled from the spec: `relative_path(baseDir, target)` from
`path_extensions` (not under src/): "compute the shortest relative path
expressing `target` from `baseDir`, inserting parent-directory segments as
needed" — strip the common prefix, then one parent segment per remaining
base component, then the remaining target components. -/
def relativePath : List Comp → List Comp → List Comp
  | b :: bs, t :: ts =>
    if b = t then relativePath bs ts
    else List.replicate (b :: bs).length .parent ++ (t :: ts)
  | bs, ts => List.replicate bs.length .parent ++ ts

/-- A path separator character.  The spec's `simplify` unifies `/` and `\`
separators, so both are treated as separators when decomposing stored
string values. -/
def isSep (c : Char) : Bool := c = '/' || c = '\\'

/-- Split a character list at separator characters, keeping empty parts. -/
def splitSep (acc : List Char) : List Char → List (List Char)
  | [] => [acc.reverse]
  | c :: cs => if isSep c then acc.reverse :: splitSep [] cs else splitSep (c :: acc) cs

/-- One textual path segment to a component, as `Path::components` does:
empty and `.` segments are dropped, `..` is a parent segment. -/
def partToComp (p : List Char) : Option Comp :=
  if p = [] then none
  else if p = ['.'] then none
  else if p = ['.', '.'] then some .parent
  else some (.normal (String.mk p))

/-- Decompose a stored string value into path components. -/
def parseComps (s : String) : List Comp :=
  (splitSep [] s.data).filterMap partToComp

/-- Characters of one component when a component list is printed back to a
string (`PathBuf::to_str` on Linux). -/
def compChars : Comp → List Char
  | .parent => ['.', '.']
  | .normal s => s.data

/-- Characters of a component list joined with `/`. -/
def renderChars : List Comp → List Char
  | [] => []
  | [c] => compChars c
  | c :: cs => compChars c ++ '/' :: renderChars cs

/-- A component list printed back to a stored string value. -/
def renderComps (l : List Comp) : String := String.mk (renderChars l)

/-- Embeds `Path::has_root` for the stored strings: the value starts with a
`/`. -/
def isRootedStr (s : String) : Bool :=
  match s.data with
  | c :: _ => c = '/'
  | [] => false

/-- Embeds the regex of `looks_like_out_of_tree_relative_path` (move_command.rs
line 304): the
regex `\.\.[/\\]` matches, i.e. the string contains `..` directly followed
by a separator, anywhere. -/
def hasDotDotSep : List Char → Bool
  | c1 :: c2 :: c3 :: rest =>
    (c1 = '.' && c2 = '.' && isSep c3) || hasDotDotSep (c2 :: c3 :: rest)
  | _ => false

/-- Embeds `looks_like_out_of_tree_relative_path` from move_command.rs. -/
def looksLikeOutOfTreeRelativePath (val : String) : Bool :=
  hasDotDotSep val.data

/-- Rust `Path::extension` on a single file name: the part after the last
`.`, provided the part before that `.` is nonempty. -/
def fileExtension (s : String) : Option String :=
  match s.data.reverse.span (fun c => c ≠ '.') with
  | (ext, '.' :: rrem) => if rrem = [] then none else some (String.mk ext.reverse)
  | _ => none

/-- Rust `Path::file_stem` on a single file name: the part before the last
`.`, or the whole name when there is no extension. -/
def fileStem (s : String) : String :=
  match s.data.reverse.span (fun c => c ≠ '.') with
  | (_, '.' :: rrem) => if rrem = [] then s else String.mk rrem.reverse
  | _ => s

/-- Embeds `try_rewrite_relative_path` (move_command.rs lines 277-302), with the
filesystem entering as the existence oracle `fsExists`.  Returns the
(possibly rewritten) value together with the returned `edited` flag.
Note the faithful embedding of line 282: the flag starts out `true` as
soon as the heuristic matches, even on the branches that leave the value
untouched. -/
def tryRewriteRelativePath (fsExists : List Comp → Bool) (oldDir newDir : List String)
    (val : String) : String × Bool :=
  if ¬ looksLikeOutOfTreeRelativePath val then (val, false)
  else if ¬ isRootedStr val then
    let p := simplify (parseComps val)
    let oldAbsPath := simplify (oldDir.map .normal ++ p)
    if fsExists oldAbsPath then
      (renderComps (relativePath (newDir.map .normal) oldAbsPath), true)
    else (val, true)
  else (val, true)

/-- The resolution of a stored value against the old project directory, as
computed inside `try_rewrite_relative_path`: simplify the value, join it
onto the old directory and simplify again. -/
def oldResolution (oldDir : List String) (val : String) : List Comp :=
  simplify (oldDir.map .normal ++ simplify (parseComps val))

/-- Resolution of a `ProjectReference` `Include` value against the
referencing project's directory (move_command.rs lines 195-198):
`[csproj_dir, Path::new(include)].iter().collect::<PathBuf>().simplify()`.
Pushing an absolute path onto a `PathBuf` replaces it. -/
def resolveInclude (csprojDir : List String) (inc : String) : List Comp :=
  if isRootedStr inc then simplify (parseComps inc)
  else simplify (csprojDir.map .normal ++ parseComps inc)

/-- The inbound-fixup rewrite of one `ProjectReference` `Include` value
(move_command.rs lines 193-211): when it resolves to the old project file,
store the path of the new project file relative to the referencing
project's directory. -/
def rewriteInclude (csprojDir oldFile newFile : List String) (inc : String) : String :=
  if resolveInclude csprojDir inc = oldFile.map .normal then
    renderComps (relativePath (csprojDir.map .normal) (newFile.map .normal))
  else inc

/-- Destination resolution (move_command.rs lines 96-112).  The input is
the destination argument already joined with the current working directory
and simplified, as a list of normal components.  When it carries the
`csproj` extension it is the new file itself; otherwise it is the new
directory and the new file is that directory joined with the directory's
own file name concatenated with `.csproj`.  `none` models the
`file_name().unwrap()` panic on an empty path. -/
def resolveDestination (path : List String) : Option (List String × List String) :=
  match path.getLast? with
  | none => none
  | some name =>
    if fileExtension name = some "csproj" then some (path.dropLast, path)
    else some (path, path ++ [name ++ ".csproj"])

/-- An `xmltree::XMLNode`: an element with a name, attributes and
children, a text node, or one of the remaining node kinds (comment,
CData, processing instruction), which the move command ignores. -/
inductive Node where
  | element (name : String) (attributes : List (String × String)) (children : List Node)
  | text (content : String)
  | other
deriving Repr

/-- Whether a node is an element carrying the given name. -/
def isElementNamed (nm : String) : Node → Bool
  | .element n _ _ => n = nm
  | _ => false

/-- Modelled from the spec: `child_elements` from `xml_extensions` (not
under src/) iterates over the element children of an element, skipping
text and other node payloads (§4.2's element-only granularity). -/
def childElements (children : List Node) : List Node :=
  children.filter fun n =>
    match n with
    | .element _ _ _ => true
    | _ => false

/-- The children of an element node (`[]` for non-elements). -/
def nodeChildren : Node → List Node
  | .element _ _ ch => ch
  | _ => []

/-- Embeds `child_elements(element).find(|e| e.name == nm)` on an element given by
its child list. -/
def findChildElementNamed (children : List Node) (nm : String) : Option Node :=
  (childElements children).find? (isElementNamed nm)

/-- The fold of move_command.rs lines 312-326: scan every `PropertyGroup`
child element, keeping the first `RootNamespace` and the first
`AssemblyName` grandchild element found. -/
def findIdentityProperties (children : List Node) : Option Node × Option Node :=
  (childElements children).foldl
    (fun state el =>
      if isElementNamed "PropertyGroup" el then
        ((state.1).orElse fun _ => findChildElementNamed (nodeChildren el) "RootNamespace",
         (state.2).orElse fun _ => findChildElementNamed (nodeChildren el) "AssemblyName")
      else state)
    (none, none)

/-- The element `<RootNamespace>name</RootNamespace>` built at
move_command.rs lines 349-350. -/
def rootNamespaceElement (name : String) : Node :=
  .element "RootNamespace" [] [.text name]

/-- The element `<AssemblyName>name</AssemblyName>` built at
move_command.rs lines 356-358. -/
def assemblyNameElement (name : String) : Node :=
  .element "AssemblyName" [] [.text name]

/-- Append nodes to the children of an element node. -/
def appendChildren (n : Node) (add : List Node) : Node :=
  match n with
  | .element nm attrs ch => .element nm attrs (ch ++ add)
  | n => n

/-- Embeds `get_mut_child("PropertyGroup")` followed by pushing onto its child
list: append `add` to the children of the first element child named
`PropertyGroup`, leaving the list unchanged when there is none. -/
def appendFirstPropertyGroup (children : List Node) (add : List Node) : List Node :=
  match children with
  | [] => []
  | n :: ns =>
    if isElementNamed "PropertyGroup" n then appendChildren n add :: ns
    else n :: appendFirstPropertyGroup ns add

/-- Whether the element has a child element named `PropertyGroup`
(`get_mut_child("PropertyGroup").is_some()`). -/
def hasPropertyGroupChild (children : List Node) : Bool :=
  children.any (isElementNamed "PropertyGroup")

/-- Embeds `ensure_root_namespace_and_assembly_name` (move_command.rs lines
311-365), acting on the child list of the `Project` element.  Line 343 is
embedded faithfully: `has_assembly_name` is computed from
`root_namespace.is_some()`, not from `assembly_name`.  Insertions target
the first `PropertyGroup` child; when there is none, nothing is inserted
and no modification is reported. -/
def ensureRootNamespaceAndAssemblyName (children : List Node) (name : String) :
    List Node × Bool :=
  let found := findIdentityProperties children
  let hasRootNamespace := found.1.isSome
  let hasAssemblyName := found.1.isSome
  if hasPropertyGroupChild children then
    let ch1 :=
      if hasRootNamespace then children
      else appendFirstPropertyGroup children [rootNamespaceElement name]
    let ch2 :=
      if hasAssemblyName then ch1
      else appendFirstPropertyGroup ch1 [assemblyNameElement name]
    (ch2, !hasRootNamespace || !hasAssemblyName)
  else (children, false)

/-- The base name passed to the identity backfill (move_command.rs line
240): the stem of the OLD project file's name,
`old_file.file_stem().unwrap()`. -/
def movedProjectBackfillName (oldFile : List String) : String :=
  fileStem (oldFile.getLastD "")

mutual

/-- The dirty flag accumulated by the moved-document visitor
(move_command.rs lines 232-253): at a `Project` element the identity
backfill runs; at every other element each attribute value goes through
`try_rewrite_relative_path`; text nodes go through it too.  The flag is
computed over the original tree: the subtrees the backfill inserts are
visited by the source code as well, but they exist only when the flag is
already set, so skipping their visits cannot change the flag, and value
rewrites cannot influence later visits because the backfill inspects only
element names. -/
def nodeEditedFlag (fsExists : List Comp → Bool) (oldDir newDir : List String)
    (name : String) : Node → Bool
  | .element nm attrs ch =>
    (if nm = "Project" then (ensureRootNamespaceAndAssemblyName ch name).2
     else attrs.any fun a => (tryRewriteRelativePath fsExists oldDir newDir a.2).2)
    || nodesEditedFlag fsExists oldDir newDir name ch
  | .text s => (tryRewriteRelativePath fsExists oldDir newDir s).2
  | .other => false

/-- The dirty flag over a list of sibling nodes. -/
def nodesEditedFlag (fsExists : List Comp → Bool) (oldDir newDir : List String)
    (name : String) : List Node → Bool
  | [] => false
  | n :: ns =>
    nodeEditedFlag fsExists oldDir newDir name n
    || nodesEditedFlag fsExists oldDir newDir name ns

end

/-- A filesystem or version-control mutation performed by the move
command: `git mv` on the project directory, `git mv` on the project file,
a document written back by `transform_xml_file`, or `git add`. -/
inductive Effect where
  | gitMvDir (src dst : List String)
  | gitMvFile (src dst : List String)
  | writeFile (p : List String)
  | gitAdd (p : List String)
deriving DecidableEq, Repr

/-- A fatal condition of `MoveCommand::execute` reached before the
physical move: panic at lines 105 (no destination file name), 117 (target
directory exists) or 157 (nested projects). -/
inductive MoveError where
  | noDestFileName
  | targetDirExists (d : List String)
  | nestedProjects (ps : List (List String))
deriving DecidableEq, Repr

/-- The inputs of one `MoveCommand::execute` run after source resolution:
the moved project's directory and canonical file path, the destination
argument joined with the working directory and simplified, the existence
oracle for the filesystem, the discovered project files, each discovered
project's `ProjectReference` `Include` values in document order, and the
moved project's document root.  Documents of the other projects enter only
through their `Include` values because the per-project dirty flag (lines
190-221) depends on nothing else. -/
structure MoveEnv where
  oldDir : List String
  oldFile : List String
  destPath : List String
  fsExists : List Comp → Bool
  csprojPaths : List (List String)
  includesOf : List String → List String
  movedDoc : Node

/-- Embeds `MoveCommand::execute` (move_command.rs lines 62-274) from destination
resolution onward, as a pure function returning the ordered list of
mutations performed and the fatal error, if any.  Stage order is the
source order: destination resolution and collision check, workspace
discovery (an input here), the nested-project guard, `git mv` of the
directory and possibly of the file, the inbound fixup of every other
project (written and staged only when one of its reference edges
changed), and the moved document's own fixup-and-backfill pass (written
and staged only when its dirty flag is set). -/
def executeMove (env : MoveEnv) : List Effect × Option MoveError :=
  match resolveDestination env.destPath with
  | none => ([], some .noDestFileName)
  | some (newDir, newFile) =>
    if env.fsExists (newDir.map .normal) then ([], some (.targetDirExists newDir))
    else
      let nested := env.csprojPaths.filter fun p =>
        env.oldDir.isPrefixOf p && p ≠ env.oldFile
      if nested ≠ [] then ([], some (.nestedProjects nested))
      else
        let currentPath := newDir ++ [env.oldFile.getLastD ""]
        let mvEffects :=
          Effect.gitMvDir env.oldDir newDir ::
            (if currentPath ≠ newFile then [Effect.gitMvFile currentPath newFile] else [])
        let inboundEffects :=
          (env.csprojPaths.filter (· ≠ env.oldFile)).flatMap fun p =>
            let pDir := p.dropLast
            let edited := (env.includesOf p).any fun inc =>
              resolveInclude pDir inc = env.oldFile.map .normal
            if edited then [Effect.writeFile p, Effect.gitAdd p] else []
        let ownEdited := nodeEditedFlag env.fsExists env.oldDir newDir
          (movedProjectBackfillName env.oldFile) env.movedDoc
        let ownEffects :=
          if ownEdited then [Effect.writeFile newFile, Effect.gitAdd newFile] else []
        (mvEffects ++ inboundEffects ++ ownEffects, none)

/-- A component of a project path relative to the solution directory, as
matched at sln.rs lines 61-67: a parent-directory segment, a normal
segment, or any other component kind (current-directory, root or prefix),
which is rejected. -/
inductive RelComp where
  | parentDir
  | normal (s : String)
  | otherComp
deriving DecidableEq, Repr

/-- Modelled from the spec: a node of the solution `DirectoryTree`
(`sln/file.rs` is not under src/): a Directory maps child names to child
nodes in insertion order, a ProjectLeaf holds the project's stable
identifier. -/
inductive SNode where
  | directory (nodes : List (String × SNode))
  | project (guid : String)
deriving Repr

/-- Look up the node bound to a name inside a directory's child list. -/
def lookupNode : List (String × SNode) → String → Option SNode
  | [], _ => none
  | (k, v) :: rest, s => if k = s then some v else lookupNode rest s

/-- Map-`insert` on a directory's child list: replace the value bound to
the name in place, or append a new binding. -/
def insertReplace : List (String × SNode) → String → SNode → List (String × SNode)
  | [], s, v => [(s, v)]
  | (k, w) :: rest, s, v =>
    if k = s then (s, v) :: rest else (k, w) :: insertReplace rest s v

/-- Replace the node bound to an existing name in a directory's child
list. -/
def replaceNode : List (String × SNode) → String → SNode → List (String × SNode)
  | [], _, _ => []
  | (k, w) :: rest, s, v =>
    if k = s then (k, v) :: rest else (k, w) :: replaceNode rest s v

/-- The folding loop of `create_solution` (sln.rs lines 57-87) for one
project: walk the relative path's components; a parent-directory or other
component is fatal; a non-final component descends into (or creates) a
directory, fatally rejecting a name already bound to a project leaf; the
final component is inserted as a project leaf with the map's plain
`insert`. -/
def addProjectAux (nodes : List (String × SNode)) :
    List RelComp → String → Except String (List (String × SNode))
  | [], _ => .ok nodes
  | comp :: rest, guid =>
    match comp with
    | .parentDir => .error "Can not reference projects outside of solution directory!"
    | .otherComp => .error "Unexpected path component!"
    | .normal s =>
      if rest.isEmpty then .ok (insertReplace nodes s (.project guid))
      else
        match lookupNode nodes s with
        | some (.project _) => .error "Project path used as directory!"
        | some (.directory d) => do
          let d' ← addProjectAux d rest guid
          .ok (replaceNode nodes s (.directory d'))
        | none => do
          let d' ← addProjectAux [] rest guid
          .ok (nodes ++ [(s, .directory d')])

/-- Embeds `create_solution` (sln.rs lines 42-89): fold the discovered projects,
each given by its path relative to the solution directory and its
identifier, into the root directory's child list. -/
def createSolution (projects : List (List RelComp × String)) :
    Except String (List (String × SNode)) :=
  projects.foldlM (fun root pr => addProjectAux root pr.1 pr.2) []

/-- Whether an `Except` value is an error. -/
def isErr : Except String (List (String × SNode)) → Bool
  | .error _ => true
  | .ok _ => false

/-- Well-formedness of one name component of a canonical absolute path:
nonempty, not `.` or `..`, and free of separator characters. -/
def wfName (s : String) : Bool :=
  s.data ≠ [] && s.data ≠ ['.'] && s.data ≠ ['.', '.'] && s.data.all fun c => !isSep c

/-- Well-formedness of a path component. -/
def wfComp : Comp → Bool
  | .parent => true
  | .normal s => wfName s

theorem simpAux_nil (stack : List Comp) : simpAux stack [] = stack.reverse := by
  cases stack with
  | nil => rfl
  | cons c rest => cases c <;> rfl

theorem simpAux_cons_normal (stack : List Comp) (x : String) (rest : List Comp) :
    simpAux stack (Comp.normal x :: rest) = simpAux (Comp.normal x :: stack) rest := by
  cases stack with
  | nil => rfl
  | cons c tail => cases c <;> rfl

theorem simpAux_push (xs : List String) :
    ∀ (s r : List Comp),
      simpAux s (xs.map Comp.normal ++ r) = simpAux ((xs.map Comp.normal).reverse ++ s) r := by
  induction xs with
  | nil => intro s r; simp
  | cons x xs ih =>
    intro s r
    simp only [List.map_cons, List.cons_append, simpAux, List.reverse_cons, List.append_assoc,
      List.singleton_append]
    exact ih (Comp.normal x :: s) r

theorem simpAux_cancel (xs : List String) :
    ∀ (s r : List Comp),
      simpAux (xs.map Comp.normal ++ s) (List.replicate xs.length Comp.parent ++ r)
        = simpAux s r := by
  induction xs with
  | nil => intro s r; simp
  | cons x xs ih =>
    intro s r
    simp only [List.map_cons, List.length_cons, List.replicate_succ, List.cons_append, simpAux]
    exact ih s r

theorem simpAux_push_cancel (xs : List String) (s r : List Comp) :
    simpAux s (xs.map Comp.normal ++ (List.replicate xs.length Comp.parent ++ r))
      = simpAux s r := by
  rw [simpAux_push]
  have h : (xs.map Comp.normal).reverse ++ s = xs.reverse.map Comp.normal ++ s := by
    rw [List.map_reverse]
  rw [h]
  have h2 : List.replicate xs.length Comp.parent
      = List.replicate xs.reverse.length Comp.parent := by rw [List.length_reverse]
  rw [h2]
  exact simpAux_cancel xs.reverse s r

theorem simpAux_normals (xs : List String) (s : List Comp) :
    simpAux s (xs.map Comp.normal) = s.reverse ++ xs.map Comp.normal := by
  have h := simpAux_push xs s []
  rw [List.append_nil] at h
  rw [h]
  simp [simpAux]

/-- The central path-arithmetic fact: appending `relativePath base target`
to `base` and simplifying yields `target`, for canonical absolute paths
given as their name components. -/
theorem simpAux_relativePath (bs : List String) :
    ∀ (ts : List String) (s : List Comp),
      simpAux s (bs.map Comp.normal ++ relativePath (bs.map Comp.normal) (ts.map Comp.normal))
        = s.reverse ++ ts.map Comp.normal := by
  induction bs with
  | nil =>
    intro ts s
    simp only [List.map_nil, List.nil_append, relativePath]
    simp only [List.length_nil, List.replicate, List.nil_append]
    exact simpAux_normals ts s
  | cons b bs ih =>
    intro ts s
    cases ts with
    | nil =>
      have hrel : relativePath (List.map Comp.normal (b :: bs))
            (List.map Comp.normal ([] : List String))
          = List.replicate (b :: bs).length Comp.parent
            ++ List.map Comp.normal ([] : List String) := by
        simp [relativePath]
      rw [hrel, simpAux_push_cancel (b :: bs) s (List.map Comp.normal ([] : List String))]
      simp [simpAux_nil]
    | cons t ts =>
      by_cases hbt : b = t
      · subst hbt
        have hrel : relativePath (List.map Comp.normal (b :: bs))
              (List.map Comp.normal (b :: ts))
            = relativePath (List.map Comp.normal bs) (List.map Comp.normal ts) := by
          simp [relativePath]
        rw [hrel, List.map_cons, List.cons_append, simpAux_cons_normal,
          ih ts (Comp.normal b :: s)]
        simp
      · have hne : Comp.normal b ≠ Comp.normal t := by
          intro hc
          injection hc with hc'
          exact hbt hc'
        have hrel : relativePath (List.map Comp.normal (b :: bs))
              (List.map Comp.normal (t :: ts))
            = List.replicate (b :: bs).length Comp.parent
              ++ List.map Comp.normal (t :: ts) := by
          simp only [List.map_cons, relativePath, if_neg hne, List.length_cons,
            List.length_map]
        rw [hrel, simpAux_push_cancel (b :: bs) s (List.map Comp.normal (t :: ts))]
        exact simpAux_normals (t :: ts) s

/-- Every component of a `relativePath` result is a parent segment or a
component of the target. -/
theorem mem_relativePath (bs : List Comp) :
    ∀ (l : List Comp) (c : Comp), c ∈ relativePath bs l → c = Comp.parent ∨ c ∈ l := by
  induction bs with
  | nil =>
    intro l c hc
    simp only [relativePath, List.length_nil, List.replicate, List.nil_append] at hc
    exact Or.inr hc
  | cons b bs ih =>
    intro l c hc
    cases l with
    | nil =>
      simp only [relativePath, List.append_nil] at hc
      exact Or.inl (List.eq_of_mem_replicate hc)
    | cons t ts =>
      by_cases hbt : b = t
      · rw [relativePath, if_pos hbt] at hc
        rcases ih ts c hc with h | h
        · exact Or.inl h
        · exact Or.inr (List.mem_cons_of_mem t h)
      · rw [relativePath, if_neg hbt] at hc
        rcases List.mem_append.mp hc with h | h
        · exact Or.inl (List.eq_of_mem_replicate h)
        · exact Or.inr h

theorem splitSep_noSep (p : List Char) :
    ∀ acc, (p.all fun c => !isSep c) = true → splitSep acc p = [acc.reverse ++ p] := by
  induction p with
  | nil => intro acc _; simp [splitSep]
  | cons c cs ih =>
    intro acc h
    simp only [List.all_cons, Bool.and_eq_true, Bool.not_eq_true'] at h
    simp only [splitSep, h.1, Bool.false_eq_true, if_false]
    rw [ih (c :: acc) (by simpa using h.2)]
    simp

theorem splitSep_sepSplit (p : List Char) :
    ∀ acc rest, (p.all fun c => !isSep c) = true →
      splitSep acc (p ++ '/' :: rest) = (acc.reverse ++ p) :: splitSep [] rest := by
  induction p with
  | nil =>
    intro acc rest _
    simp [splitSep, isSep]
  | cons c cs ih =>
    intro acc rest h
    simp only [List.all_cons, Bool.and_eq_true, Bool.not_eq_true'] at h
    simp only [List.cons_append, splitSep, h.1, Bool.false_eq_true, if_false, List.append_eq]
    rw [ih (c :: acc) rest (by simpa using h.2)]
    simp

theorem compChars_noSep (c : Comp) (h : wfComp c = true) :
    (compChars c).all (fun x => !isSep x) = true := by
  cases c with
  | parent => decide
  | normal s =>
    simp only [wfComp, wfName, Bool.and_eq_true] at h
    exact h.2

theorem partToComp_compChars (c : Comp) (h : wfComp c = true) :
    partToComp (compChars c) = some c := by
  cases c with
  | parent => decide
  | normal s =>
    simp only [wfComp, wfName, Bool.and_eq_true, decide_eq_true_eq, ne_eq] at h
    simp only [compChars, partToComp, if_neg h.1.1.1, if_neg h.1.1.2, if_neg h.1.2]

theorem parseComps_renderComps (l : List Comp) (h : ∀ c ∈ l, wfComp c = true) :
    parseComps (renderComps l) = l := by
  induction l with
  | nil => rfl
  | cons c cs ih =>
    cases cs with
    | nil =>
      show (splitSep [] (renderChars [c])).filterMap partToComp = [c]
      rw [show renderChars [c] = compChars c from rfl]
      rw [splitSep_noSep (compChars c) [] (compChars_noSep c (h c (List.mem_singleton.mpr rfl)))]
      simp [partToComp_compChars c (h c (List.mem_singleton.mpr rfl))]
    | cons c' cs' =>
      show (splitSep [] (renderChars (c :: c' :: cs'))).filterMap partToComp = c :: c' :: cs'
      rw [show renderChars (c :: c' :: cs') = compChars c ++ '/' :: renderChars (c' :: cs')
        from rfl]
      rw [splitSep_sepSplit (compChars c) [] (renderChars (c' :: cs'))
        (compChars_noSep c (h c (List.mem_cons_self c _)))]
      simp only [List.reverse_nil, List.nil_append, List.filterMap_cons,
        partToComp_compChars c (h c (List.mem_cons_self c _))]
      exact congrArg (c :: ·) (ih fun x hx => h x (List.mem_cons_of_mem c hx))

theorem isRootedStr_renderComps (l : List Comp) (h : ∀ c ∈ l, wfComp c = true) :
    isRootedStr (renderComps l) = false := by
  cases l with
  | nil => rfl
  | cons c cs =>
    have hhead : ∃ ch rest, renderChars (c :: cs) = ch :: rest ∧ isSep ch = false := by
      cases c with
      | parent =>
        cases cs with
        | nil => exact ⟨'.', ['.'], rfl, by decide⟩
        | cons c' cs' => exact ⟨'.', '.' :: '/' :: renderChars (c' :: cs'), rfl, by decide⟩
      | normal s =>
        have hs := h (Comp.normal s) (List.mem_cons_self _ _)
        simp only [wfComp, wfName, Bool.and_eq_true, decide_eq_true_eq, ne_eq] at hs
        obtain ⟨ch, rest, hdata⟩ : ∃ ch rest, s.data = ch :: rest := by
          cases hd : s.data with
          | nil => exact absurd hd hs.1.1.1
          | cons a b => exact ⟨a, b, rfl⟩
        have hnosep : isSep ch = false := by
          have h2 := hs.2
          rw [hdata] at h2
          simp only [List.all_cons, Bool.and_eq_true, Bool.not_eq_true'] at h2
          exact h2.1
        cases cs with
        | nil => exact ⟨ch, rest, by simp [renderChars, compChars, hdata], hnosep⟩
        | cons c' cs' =>
          exact ⟨ch, rest ++ '/' :: renderChars (c' :: cs'),
            by simp [renderChars, compChars, hdata], hnosep⟩
    obtain ⟨ch, rest, heq, hnosep⟩ := hhead
    have h1 : ch ≠ '/' := by
      simp only [isSep, Bool.or_eq_false_iff, decide_eq_false_iff_not] at hnosep
      exact hnosep.1
    show isRootedStr (String.mk (renderChars (c :: cs))) = false
    rw [heq]
    simp [isRootedStr, h1]

/-- C5: an inbound reference edge that resolved (from the referencing
project's own directory) to the moved project's old path resolves, after
the rewrite, to the moved project's new path. -/
theorem inbound_reference_integrity (csprojDir oldFile newFile : List String) (inc : String)
    (hwf : newFile.all wfName = true)
    (hres : resolveInclude csprojDir inc = oldFile.map Comp.normal) :
    resolveInclude csprojDir (rewriteInclude csprojDir oldFile newFile inc)
      = newFile.map Comp.normal := by
  have hrw : rewriteInclude csprojDir oldFile newFile inc
      = renderComps (relativePath (csprojDir.map Comp.normal) (newFile.map Comp.normal)) := by
    unfold rewriteInclude
    rw [if_pos hres]
  have hwfc : ∀ c ∈ relativePath (csprojDir.map Comp.normal) (newFile.map Comp.normal),
      wfComp c = true := by
    intro c hc
    rcases mem_relativePath _ _ c hc with h | h
    · subst h; rfl
    · obtain ⟨x, hx, hxc⟩ := List.mem_map.mp h
      subst hxc
      show wfName x = true
      simp only [List.all_eq_true] at hwf
      exact hwf x hx
  have hroot := isRootedStr_renderComps _ hwfc
  have hparse := parseComps_renderComps _ hwfc
  rw [hrw]
  unfold resolveInclude
  rw [if_neg (by simp [hroot]), hparse]
  show simpAux []
      (csprojDir.map Comp.normal
        ++ relativePath (csprojDir.map Comp.normal) (newFile.map Comp.normal))
    = newFile.map Comp.normal
  have h := simpAux_relativePath csprojDir newFile []
  simpa using h

theorem inbound_reference_integrity_witness :
    ((["repo", "B", "C.csproj"] : List String).all wfName = true
      ∧ resolveInclude ["repo", "Q"] "../A/A.csproj"
          = (["repo", "A", "A.csproj"] : List String).map Comp.normal)
    ∧ resolveInclude ["repo", "Q"]
        (rewriteInclude ["repo", "Q"] ["repo", "A", "A.csproj"] ["repo", "B", "C.csproj"]
          "../A/A.csproj")
      = (["repo", "B", "C.csproj"] : List String).map Comp.normal :=
  ⟨⟨by decide, by decide⟩,
    inbound_reference_integrity ["repo", "Q"] ["repo", "A", "A.csproj"]
      ["repo", "B", "C.csproj"] "../A/A.csproj" (by decide) (by decide)⟩

/-- C7: the outbound fixup replaces a stored value only when its
resolution against the old directory exists on disk; when that resolution
does not exist, the stored string is left unchanged (whatever the
out-of-tree heuristic and the rootedness test said). -/
theorem outbound_fixup_requires_existing_resolution (fs : List Comp → Bool)
    (oldDir newDir : List String) (val : String)
    (h : fs (oldResolution oldDir val) = false) :
    (tryRewriteRelativePath fs oldDir newDir val).1 = val := by
  unfold tryRewriteRelativePath
  by_cases hlook : looksLikeOutOfTreeRelativePath val = true
  · rw [if_neg (by simpa using hlook)]
    by_cases hroot : isRootedStr val = true
    · rw [if_neg (by simpa using hroot)]
    · rw [if_pos hroot]
      show (if fs (oldResolution oldDir val) = true then
          (renderComps (relativePath (newDir.map Comp.normal) (oldResolution oldDir val)),
            true)
        else (val, true)).1 = val
      rw [if_neg (by simp [h])]
  · rw [if_pos hlook]

theorem outbound_fixup_requires_existing_resolution_witness :
    ((fun _ => false : List Comp → Bool) (oldResolution ["repo", "A"] "../missing/x.txt")
        = false)
    ∧ (tryRewriteRelativePath (fun _ => false) ["repo", "A"] ["repo", "B"]
        "../missing/x.txt").1 = "../missing/x.txt" :=
  ⟨rfl, outbound_fixup_requires_existing_resolution (fun _ => false) ["repo", "A"]
    ["repo", "B"] "../missing/x.txt" rfl⟩

/-- C10: a value flagged by the out-of-tree heuristic that is a rooted
path is never rewritten: its string content is left unchanged regardless
of what exists on disk. -/
theorem outbound_fixup_rooted_value_unchanged (fs : List Comp → Bool)
    (oldDir newDir : List String) (val : String)
    (hlook : looksLikeOutOfTreeRelativePath val = true)
    (hroot : isRootedStr val = true) :
    (tryRewriteRelativePath fs oldDir newDir val).1 = val := by
  unfold tryRewriteRelativePath
  rw [if_neg (by simpa using hlook), if_neg (by simpa using hroot)]

theorem outbound_fixup_rooted_value_unchanged_witness :
    (looksLikeOutOfTreeRelativePath "/abs/../lib" = true
      ∧ isRootedStr "/abs/../lib" = true)
    ∧ (tryRewriteRelativePath (fun _ => true) ["repo", "A"] ["repo", "B"] "/abs/../lib").1
      = "/abs/../lib" :=
  ⟨⟨by decide, by decide⟩,
    outbound_fixup_rooted_value_unchanged (fun _ => true) ["repo", "A"] ["repo", "B"]
      "/abs/../lib" (by decide) (by decide)⟩

/-- C9: when the project root has no property-group child element, the
identity backfill inserts nothing, reports no modification and raises no
error (the embedding is a total function), even when both identity
properties are absent. -/
theorem backfill_without_property_group_is_noop (children : List Node) (name : String)
    (h : hasPropertyGroupChild children = false) :
    ensureRootNamespaceAndAssemblyName children name = (children, false) := by
  simp [ensureRootNamespaceAndAssemblyName, h]

theorem backfill_without_property_group_is_noop_witness :
    hasPropertyGroupChild [Node.element "ItemGroup" [] [], Node.text "x"] = false
    ∧ ensureRootNamespaceAndAssemblyName [Node.element "ItemGroup" [] [], Node.text "x"]
        "NewName"
      = ([Node.element "ItemGroup" [] [], Node.text "x"], false) :=
  ⟨rfl, backfill_without_property_group_is_noop
    [Node.element "ItemGroup" [] [], Node.text "x"] "NewName" rfl⟩

theorem except_error_bind {α β : Type} (e : String) (f : α → Except String β) :
    (Except.error e : Except String α) >>= f = Except.error e := rfl

theorem except_ok_bind {α β : Type} (a : α) (f : α → Except String β) :
    (Except.ok a : Except String α) >>= f = f a := rfl

theorem addProjectAux_parentDir (comps : List RelComp) :
    ∀ (nodes : List (String × SNode)) (guid : String), RelComp.parentDir ∈ comps →
      isErr (addProjectAux nodes comps guid) = true := by
  induction comps with
  | nil => intro nodes guid h; exact absurd h (List.not_mem_nil _)
  | cons c rest ih =>
    intro nodes guid h
    cases c with
    | parentDir => rfl
    | otherComp => rfl
    | normal s =>
      have hrest : RelComp.parentDir ∈ rest := by
        rcases List.mem_cons.mp h with h1 | h1
        · exact absurd h1 (by simp)
        · exact h1
      have hemp : rest.isEmpty = false := by
        cases rest with
        | nil => exact absurd hrest (List.not_mem_nil _)
        | cons a b => rfl
      simp only [addProjectAux, hemp, Bool.false_eq_true, if_false]
      cases hl : lookupNode nodes s with
      | none =>
        have hres := ih [] guid hrest
        cases hres2 : addProjectAux [] rest guid with
        | error e => rfl
        | ok v => rw [hres2] at hres; simp [isErr] at hres
      | some node =>
        cases node with
        | project g => simp [isErr]
        | directory d =>
          have hres := ih d guid hrest
          cases hres2 : addProjectAux d rest guid with
          | error e => simp [hres2, isErr, except_error_bind]
          | ok v => rw [hres2] at hres; simp [isErr] at hres

theorem foldlM_addProject_err (projects : List (List RelComp × String)) :
    ∀ root, (∃ pr ∈ projects, RelComp.parentDir ∈ pr.1) →
      isErr (projects.foldlM (fun acc pr => addProjectAux acc pr.1 pr.2) root) = true := by
  induction projects with
  | nil =>
    intro root h
    obtain ⟨pr, hm, _⟩ := h
    exact absurd hm (List.not_mem_nil _)
  | cons p ps ih =>
    intro root h
    rw [show (p :: ps).foldlM (fun acc pr => addProjectAux acc pr.1 pr.2) root
        = addProjectAux root p.1 p.2 >>= fun acc =>
            ps.foldlM (fun acc pr => addProjectAux acc pr.1 pr.2) acc from rfl]
    cases hres : addProjectAux root p.1 p.2 with
    | error e => rfl
    | ok r =>
      rcases h with ⟨pr, hm, hp⟩
      rcases List.mem_cons.mp hm with h1 | h1
      · subst h1
        have hcontra := addProjectAux_parentDir pr.1 root pr.2 hp
        rw [hres] at hcontra
        simp [isErr] at hcontra
      · show isErr (Except.ok r >>= fun acc =>
          ps.foldlM (fun acc pr => addProjectAux acc pr.1 pr.2) acc) = true
        rw [show (Except.ok r >>= fun acc =>
            ps.foldlM (fun acc pr => addProjectAux acc pr.1 pr.2) acc)
          = ps.foldlM (fun acc pr => addProjectAux acc pr.1 pr.2) r from rfl]
        exact ih r ⟨pr, h1, hp⟩

/-- C8: when some project's path relative to the solution directory
contains a parent-directory component, solution tree construction fails
with a fatal error and no tree is produced. -/
theorem solution_tree_rejects_parent_segments (projects : List (List RelComp × String))
    (h : ∃ pr ∈ projects, RelComp.parentDir ∈ pr.1) :
    isErr (createSolution projects) = true :=
  foldlM_addProject_err projects [] h

theorem solution_tree_rejects_parent_segments_witness :
    (∃ pr ∈ [([RelComp.parentDir, RelComp.normal "Foo", RelComp.normal "Foo.csproj"],
        "guid-1")], RelComp.parentDir ∈ pr.1)
    ∧ isErr (createSolution [([RelComp.parentDir, RelComp.normal "Foo",
        RelComp.normal "Foo.csproj"], "guid-1")]) = true :=
  ⟨⟨([RelComp.parentDir, RelComp.normal "Foo", RelComp.normal "Foo.csproj"], "guid-1"),
      by simp, by simp⟩,
    solution_tree_rejects_parent_segments _
      ⟨([RelComp.parentDir, RelComp.normal "Foo", RelComp.normal "Foo.csproj"], "guid-1"),
        by simp, by simp⟩⟩

/-- C1 (counterexample): on a project whose property group contains
root-namespace but no assembly-name, the backfill inserts nothing at all
and reports no modification — refuting the claimed independent synthesis
of assembly-name.  Moreover the name the caller passes to the backfill is
the OLD file's stem (`old_file.file_stem()`, line 240), which differs from
the new file's base name when the move renames the file (here moving
`Foo.csproj` to destination directory `B`, whose new file is
`B.csproj`). -/
theorem identity_backfill_claim_counterexample :
    ensureRootNamespaceAndAssemblyName
        [Node.element "PropertyGroup" [] [Node.element "RootNamespace" [] [Node.text "Old"]]]
        "New"
      = ([Node.element "PropertyGroup" []
            [Node.element "RootNamespace" [] [Node.text "Old"]]], false)
    ∧ movedProjectBackfillName ["repo", "A", "Foo.csproj"] = "Foo"
    ∧ fileStem "B.csproj" = "B"
    ∧ ("Foo" : String) ≠ "B" :=
  ⟨rfl, rfl, rfl, by decide⟩

theorem appendFirstPropertyGroup_append (children : List Node) (a b : Node) :
    appendFirstPropertyGroup (appendFirstPropertyGroup children [a]) [b]
      = appendFirstPropertyGroup children [a, b] := by
  induction children with
  | nil => rfl
  | cons n ns ih =>
    cases n with
    | text s => simp [appendFirstPropertyGroup, isElementNamed, ih]
    | other => simp [appendFirstPropertyGroup, isElementNamed, ih]
    | element nm attrs ch =>
      by_cases hnm : nm = "PropertyGroup"
      · subst hnm
        simp [appendFirstPropertyGroup, isElementNamed, appendChildren]
      · simp [appendFirstPropertyGroup, isElementNamed, hnm, ih]

/-- C1 (amended): the identity backfill keys both insertions on the
presence of root-namespace alone, and the synthesized value is the old
file's base name.  If some property group contains a root-namespace
element, nothing is inserted and no modification is reported, even when
assembly-name is absent; if none does and the root has a property-group
child, both a root-namespace and an assembly-name element carrying the old
file's stem are appended to the first property-group child. -/
theorem identity_backfill_keyed_on_root_namespace (children : List Node)
    (oldFile : List String) :
    ((findIdentityProperties children).1.isSome = true →
      ensureRootNamespaceAndAssemblyName children (movedProjectBackfillName oldFile)
        = (children, false))
    ∧ ((findIdentityProperties children).1 = none →
      hasPropertyGroupChild children = true →
      ensureRootNamespaceAndAssemblyName children (movedProjectBackfillName oldFile)
        = (appendFirstPropertyGroup children
            [rootNamespaceElement (movedProjectBackfillName oldFile),
             assemblyNameElement (movedProjectBackfillName oldFile)], true)) := by
  constructor
  · intro h
    simp [ensureRootNamespaceAndAssemblyName, h]
  · intro h1 h2
    simp [ensureRootNamespaceAndAssemblyName, h1, h2, appendFirstPropertyGroup_append]

theorem identity_backfill_keyed_on_root_namespace_witness :
    ((findIdentityProperties
        [Node.element "PropertyGroup" []
          [Node.element "RootNamespace" [] [Node.text "Old"]]]).1.isSome = true
      ∧ ensureRootNamespaceAndAssemblyName
          [Node.element "PropertyGroup" [] [Node.element "RootNamespace" [] [Node.text "Old"]]]
          (movedProjectBackfillName ["repo", "A", "Foo.csproj"])
        = ([Node.element "PropertyGroup" []
              [Node.element "RootNamespace" [] [Node.text "Old"]]], false))
    ∧ ensureRootNamespaceAndAssemblyName [Node.element "PropertyGroup" [] []]
        (movedProjectBackfillName ["repo", "A", "Foo.csproj"])
      = ([Node.element "PropertyGroup" []
            [Node.element "RootNamespace" [] [Node.text "Foo"],
             Node.element "AssemblyName" [] [Node.text "Foo"]]], true) := by
  refine ⟨⟨rfl, ?_⟩, ?_⟩
  · exact (identity_backfill_keyed_on_root_namespace
      [Node.element "PropertyGroup" [] [Node.element "RootNamespace" [] [Node.text "Old"]]]
      ["repo", "A", "Foo.csproj"]).1 rfl
  · have h := (identity_backfill_keyed_on_root_namespace
      [Node.element "PropertyGroup" [] []] ["repo", "A", "Foo.csproj"]).2 rfl rfl
    rw [h]
    rfl

/-- C2 (counterexample): resolving destination directory `repo/B` for a
moved project whose original file name is `Foo.csproj` yields the new file
`repo/B/B.csproj` — the destination directory's own name with the
project-descriptor extension — not `repo/B/Foo.csproj` as claimed. -/
theorem destination_resolution_claim_counterexample :
    resolveDestination ["repo", "B"] = some (["repo", "B"], ["repo", "B", "B.csproj"])
    ∧ (["repo", "B", "B.csproj"] : List String) ≠ ["repo", "B"] ++ ["Foo.csproj"] :=
  ⟨rfl, by decide⟩

/-- C2 (amended): when the destination (joined with the working directory
and simplified) lacks the `csproj` extension, the new project file is the
destination directory joined with the destination's own final component
concatenated with `.csproj`. -/
theorem destination_resolution_appends_destination_name (path : List String) (name : String)
    (hlast : path.getLast? = some name)
    (hext : fileExtension name ≠ some "csproj") :
    resolveDestination path = some (path, path ++ [name ++ ".csproj"]) := by
  unfold resolveDestination
  rw [hlast]
  simp [hext]

theorem destination_resolution_appends_destination_name_witness :
    ((["repo", "B"] : List String).getLast? = some "B"
      ∧ fileExtension "B" ≠ some "csproj")
    ∧ resolveDestination ["repo", "B"] = some (["repo", "B"], ["repo", "B"] ++ ["B" ++ ".csproj"]) :=
  ⟨⟨rfl, by decide⟩,
    destination_resolution_appends_destination_name ["repo", "B"] "B" rfl (by decide)⟩

/-- C4 (counterexample): folding the project paths `src/Foo/Foo.csproj`
and then `src/Foo` succeeds — the second project's final component
silently replaces the existing `Foo` directory node with a project leaf
instead of failing, refuting the claimed fatality in both directions. -/
theorem tree_collision_claim_counterexample :
    createSolution
        [([RelComp.normal "src", RelComp.normal "Foo", RelComp.normal "Foo.csproj"], "guid-1"),
         ([RelComp.normal "src", RelComp.normal "Foo"], "guid-2")]
      = .ok [("src", SNode.directory [("Foo", SNode.project "guid-2")])] := rfl

theorem lookupNode_insertReplace (nodes : List (String × SNode)) (s : String) (v : SNode) :
    lookupNode (insertReplace nodes s v) s = some v := by
  induction nodes with
  | nil => simp [insertReplace, lookupNode]
  | cons kv rest ih =>
    obtain ⟨k, w⟩ := kv
    by_cases hks : k = s
    · simp [insertReplace, hks, lookupNode]
    · simp [insertReplace, hks, lookupNode, ih]

/-- C4 (amended): the collision check is one-directional.  Folding a
directory component onto a name already bound to a project leaf is fatal;
terminating a project leaf at an existing name (in particular one bound to
a directory) silently replaces the existing node with the leaf. -/
theorem tree_collision_fatal_one_direction :
    (∀ (nodes : List (String × SNode)) (s guid' : String) (rest : List RelComp)
        (guid : String),
      rest ≠ [] → lookupNode nodes s = some (SNode.project guid') →
        addProjectAux nodes (RelComp.normal s :: rest) guid
          = .error "Project path used as directory!")
    ∧ (∀ (nodes : List (String × SNode)) (s : String) (d : List (String × SNode))
        (guid : String),
      lookupNode nodes s = some (SNode.directory d) →
        addProjectAux nodes [RelComp.normal s] guid
          = .ok (insertReplace nodes s (SNode.project guid))
        ∧ lookupNode (insertReplace nodes s (SNode.project guid)) s
          = some (SNode.project guid)) := by
  constructor
  · intro nodes s guid' rest guid hne hl
    have hemp : rest.isEmpty = false := by
      cases rest with
      | nil => exact absurd rfl hne
      | cons a b => rfl
    simp [addProjectAux, hemp, hl]
  · intro nodes s d guid hl
    exact ⟨by simp [addProjectAux], lookupNode_insertReplace nodes s _⟩

theorem tree_collision_fatal_one_direction_witness :
    addProjectAux [("Foo", SNode.project "guid-1")]
        [RelComp.normal "Foo", RelComp.normal "Foo.csproj"] "guid-2"
      = .error "Project path used as directory!"
    ∧ addProjectAux [("Foo", SNode.directory [("Foo.csproj", SNode.project "guid-1")])]
        [RelComp.normal "Foo"] "guid-2"
      = .ok [("Foo", SNode.project "guid-2")] := by
  constructor
  · exact tree_collision_fatal_one_direction.1 [("Foo", SNode.project "guid-1")] "Foo"
      "guid-1" [RelComp.normal "Foo.csproj"] "guid-2" (by simp) rfl
  · have h := (tree_collision_fatal_one_direction.2
      [("Foo", SNode.directory [("Foo.csproj", SNode.project "guid-1")])] "Foo"
      [("Foo.csproj", SNode.project "guid-1")] "guid-2" rfl).1
    rw [h]
    rfl

/-- C3 (code bug): `try_rewrite_relative_path` initializes its `edited`
flag to `true` (line 282), so a flagged value whose old resolution does
not exist on disk leaves the stored string untouched yet still reports a
modification; consequently the moved document's dirty flag is set and the
document is re-serialized, written back and staged even though no value
changed (here the only flagged value is `../missing/file.txt`, which the
filesystem oracle says does not resolve, and the identity backfill is a
no-op because root-namespace is present). -/
theorem moved_document_spurious_dirty_flag :
    tryRewriteRelativePath (fun _ => false) ["repo", "A"] ["repo", "B"] "../missing/file.txt"
      = ("../missing/file.txt", true)
    ∧ nodeEditedFlag (fun _ => false) ["repo", "A"] ["repo", "B"] "Foo"
        (Node.element "Project" []
          [Node.element "PropertyGroup" [] [Node.element "RootNamespace" [] [Node.text "A"]],
           Node.element "ItemGroup" []
             [Node.element "None" [("Include", "../missing/file.txt")] []]]) = true :=
  ⟨rfl, rfl⟩

/-- C6: when some discovered project other than the moved one lies inside
the source directory subtree, the move fails with no filesystem or
version-control mutation performed at all. -/
theorem nested_guard_no_mutation (env : MoveEnv)
    (h : ∃ p ∈ env.csprojPaths, env.oldDir.isPrefixOf p = true ∧ p ≠ env.oldFile) :
    (executeMove env).1 = [] ∧ (executeMove env).2.isSome = true := by
  obtain ⟨p, hp, hpre, hne⟩ := h
  unfold executeMove
  cases hdest : resolveDestination env.destPath with
  | none => simp
  | some df =>
    obtain ⟨newDir, newFile⟩ := df
    by_cases hfs : env.fsExists (newDir.map Comp.normal) = true
    · simp [hfs]
    · have hcond : ∃ x ∈ env.csprojPaths, env.oldDir <+: x ∧ ¬x = env.oldFile :=
        ⟨p, hp, List.isPrefixOf_iff_prefix.mp hpre, hne⟩
      simp [hfs, hcond]

/-- A concrete environment exercising the nested-project guard: the moved
directory `r/A` contains, besides the moved project itself, the unrelated
project `r/A/Sub/N.csproj`. -/
def nestedGuardEnv : MoveEnv where
  oldDir := ["r", "A"]
  oldFile := ["r", "A", "A.csproj"]
  destPath := ["r", "B"]
  fsExists := fun _ => false
  csprojPaths := [["r", "A", "A.csproj"], ["r", "A", "Sub", "N.csproj"]]
  includesOf := fun _ => []
  movedDoc := Node.other

theorem nested_guard_no_mutation_witness :
    (∃ p ∈ nestedGuardEnv.csprojPaths,
        nestedGuardEnv.oldDir.isPrefixOf p = true ∧ p ≠ nestedGuardEnv.oldFile)
    ∧ (executeMove nestedGuardEnv).1 = []
    ∧ (executeMove nestedGuardEnv).2.isSome = true := by
  have hx : ∃ p ∈ nestedGuardEnv.csprojPaths,
      nestedGuardEnv.oldDir.isPrefixOf p = true ∧ p ≠ nestedGuardEnv.oldFile :=
    ⟨["r", "A", "Sub", "N.csproj"], by simp [nestedGuardEnv], by decide, by decide⟩
  exact ⟨hx, nested_guard_no_mutation nestedGuardEnv hx⟩

end Csprojtool
